import Mathlib

/-!
Verification of the suggestion-application engine and search scoring/dedup
logic of the job-hunter repository (`src/lib/review.ts`, `src/lib/search.ts`).

The profile document handled by `review.ts` is the result of `JSON.parse`
on `profile.json`: an arbitrarily nested tree of objects, arrays, strings,
numbers, booleans and nulls, with no shared references and with unique keys
per object.  We embed it as the inductive type `Json` below.  Property
access `current[part]` is modelled on own document properties of that tree
(object keys — with JavaScript's number-to-string key coercion — and array
index properties, including canonical numeric-string indexing of arrays).
Accesses that never yield a mutable document node (inherited prototype
members such as `toString`, string character access, the array `length`
property) are outside this document model; mutating through them either
throws in strict mode or touches non-document state, and none of the
verified claims quantifies over such paths.  JSON numbers are embedded as
`Int` (they occur only as opaque leaves here) and integer behaviour beyond
2^53 is not modelled.
-/

namespace JobHunter

/-- A JSON document node, as produced by `JSON.parse`. Object fields are an
ordered association list, mirroring JavaScript property insertion order. -/
inductive Json where
  | null : Json
  | bool (b : Bool) : Json
  | num (n : Int) : Json
  | str (s : String) : Json
  | arr (elems : List Json) : Json
  | obj (fields : List (String × Json)) : Json

/-- First-occurrence lookup in an object's field list (JavaScript objects
have unique keys, so first occurrence is the only occurrence in practice). -/
def lookupKey : List (String × Json) → String → Option Json
  | [], _ => none
  | (k, v) :: rest, s => if k = s then some v else lookupKey rest s

/-- One segment of a resolved section path: an identifier (object property)
or a bracketed numeric index. -/
inductive Part where
  | field (s : String) : Part
  | index (n : Nat) : Part

-- === Path tokenization (the regex /([^[.\]]+)|\[(\d+)\]/g in resolvePath) ===

/-- Characters excluded from identifier runs by the character class
`[^[.\]]` of the path regex. -/
def excludedChar (c : Char) : Bool := c == '[' || c == '.' || c == ']'

/-- Base-10 value of a digit run, as `parseInt` computes on `\d+`. -/
def digitsToNat (ds : List Char) : Nat :=
  ds.foldl (fun a c => a * 10 + (c.toNat - '0'.toNat)) 0

/-- Try to match `\[(\d+)\]` immediately after an opening bracket: one or
more ASCII digits followed by `]`. Returns the parsed index and the rest. -/
def bracketNum (cs : List Char) : Option (Nat × List Char) :=
  let ds := cs.takeWhile (fun c => c.isDigit)
  let rest := cs.dropWhile (fun c => c.isDigit)
  if ds.isEmpty then none
  else
    match rest with
    | ']' :: rest' => some (digitsToNat ds, rest')
    | _ => none

/-- One left-to-right scan of the path string, emitting each match of
`([^[.\]]+)|\[(\d+)\]` in order, exactly as the `regex.exec` loop of
`resolvePath` does: at a non-excluded character the first alternative
matches a maximal identifier run; at `[` the second alternative matches a
whole bracketed number if the digits-then-`]` shape is present; any other
excluded character (and a `[` not opening a well-formed index) is skipped.
Fuel is the remaining length; every step consumes at least one character,
so `tokenizeAux cs.length cs` never exhausts it. -/
def tokenizeAux : Nat → List Char → List Part
  | 0, _ => []
  | _, [] => []
  | fuel + 1, c :: rest =>
    if excludedChar c then
      if c == '[' then
        match bracketNum rest with
        | some (n, rest') => Part.index n :: tokenizeAux fuel rest'
        | none => tokenizeAux fuel rest
      else tokenizeAux fuel rest
    else
      Part.field (String.mk ((c :: rest).takeWhile (fun x => !excludedChar x))) ::
        tokenizeAux fuel ((c :: rest).dropWhile (fun x => !excludedChar x))

/-- All path parts of a section string, in order. -/
def tokenizePath (s : String) : List Part := tokenizeAux s.data.length s.data

-- === Property access (current[parts[i]] on document nodes) ===

/-- Is `s` the canonical string form of an array index (`"0"`, or digits
without a leading zero)?  These are exactly the string keys under which
JavaScript arrays expose their elements as own properties. -/
def isCanonIndex (s : String) : Bool :=
  !s.data.isEmpty && s.data.all (fun c => c.isDigit) &&
    (s.data.head? != some '0' || s.data.length == 1)

/-- Numeric value of a canonical index string. -/
def strToNat (s : String) : Nat := digitsToNat s.data

/-- Property access `current[part]` on a document node (own document properties only, see
the module comment): object fields by name — a numeric part is coerced to
its decimal string, as JavaScript property access does — and array elements
by index, also reachable through a canonical numeric-string field.
`none` is JavaScript's `undefined`. -/
def jsGet : Json → Part → Option Json
  | .obj kvs, .field s => lookupKey kvs s
  | .obj kvs, .index n => lookupKey kvs (Nat.repr n)
  | .arr xs, .index n => xs[n]?
  | .arr xs, .field s => if isCanonIndex s then xs[strToNat s]? else none
  | _, _ => none

/-- The loose-equality test `current == null` of `resolvePath` is true
exactly for `null` and `undefined`; `undefined` is `Option.none` here. -/
def isNull : Json → Bool
  | .null => true
  | _ => false

/-- The descent loop of `resolvePath`: for each part, first check
`current == null` (returning failure), then step to `current[part]`.
A step to `undefined` fails at the next check in the source; both shapes
collapse to `none` here. -/
def walk : Json → List Part → Option Json
  | j, [] => some j
  | j, p :: ps =>
    if isNull j then none
    else
      match jsGet j p with
      | none => none
      | some j' => walk j' ps

/-- The body of `resolvePath` of `review.ts` on an already-tokenized part list: no
parts is failure; otherwise descend through all but the last part and
return the parent together with the final part as the key, unless the
parent is null/undefined. -/
def resolveParts (d : Json) (parts : List Part) : Option (Json × Part) :=
  match parts.getLast? with
  | none => none
  | some key =>
    match walk d parts.dropLast with
    | none => none
    | some parent => if isNull parent then none else some (parent, key)

/-- The function `resolvePath(obj, path)` of `review.ts`. -/
def resolvePath (d : Json) (path : String) : Option (Json × Part) :=
  resolveParts d (tokenizePath path)

-- === Mutation primitives (the suggestion.type branches of applySuggestion) ===

/-- Assignment `parent[key] = v` on an object's field list: overwrite the (unique)
existing entry in place, or append the new key in insertion order. -/
def setKey : List (String × Json) → String → Json → List (String × Json)
  | [], s, v => [(s, v)]
  | (k, w) :: rest, s, v =>
    if k = s then (k, v) :: rest else (k, w) :: setKey rest s v

/-- Deletion `delete parent[key]` on an object's field list: remove the (unique)
entry with that key. -/
def delKey : List (String × Json) → String → List (String × Json)
  | [], _ => []
  | (k, w) :: rest, s => if k = s then rest else (k, w) :: delKey rest s

/-- Splicing `parent.splice(key, 1)` on an array: remove exactly the element at
that index (no effect past the end). -/
def spliceOne (xs : List Json) (n : Nat) : List Json :=
  xs.take n ++ xs.drop (n + 1)

/-- Assignment `parent[n] = v` on an array, in the JSON view: in-range assignment
replaces the element; past-the-end assignment extends the array, the
intermediate holes serializing as `null`. -/
def setIdxExtend (xs : List Json) (n : Nat) (v : Json) : List Json :=
  if n < xs.length then xs.set n v
  else xs ++ List.replicate (n - xs.length) Json.null ++ [v]

/-- The assignment branch `parent[key] = suggestion.suggested` of
`applySuggestion`, in the JSON view of the document.  Assignment to a
non-index string field of an array does not change the array's JSON
serialization (and assigning array `length`, like assigning through a
primitive parent, throws in strict mode — outside the modelled fragment,
see the module comment). -/
def setAt : Json → Part → Json → Json
  | .obj kvs, .field s, v => .obj (setKey kvs s v)
  | .obj kvs, .index n, v => .obj (setKey kvs (Nat.repr n) v)
  | .arr xs, .index n, v => .arr (setIdxExtend xs n v)
  | .arr xs, .field s, v =>
    if isCanonIndex s then .arr (setIdxExtend xs (strToNat s) v) else .arr xs
  | j, _, _ => j

/-- The `remove` branch of `applySuggestion`: splice when the parent is an
array and the key is numeric (`typeof key === "number"`), otherwise
`delete parent[key]`.  Deleting a numeric-string field of an array leaves
a hole, which serializes as `null`. -/
def removeAt : Json → Part → Json
  | .arr xs, .index n => .arr (spliceOne xs n)
  | .arr xs, .field s =>
    if isCanonIndex s && strToNat s < xs.length
    then .arr (xs.set (strToNat s) Json.null)
    else .arr xs
  | .obj kvs, .field s => .obj (delKey kvs s)
  | .obj kvs, .index n => .obj (delKey kvs (Nat.repr n))
  | j, _ => j

/-- Replace the already-present child `current[p]` of a node. This is the
functional reading of mutating, in place, a node that `resolvePath`
reached by reference. -/
def jsSetChild : Json → Part → Json → Json
  | .obj kvs, .field s, c => .obj (setKey kvs s c)
  | .obj kvs, .index n, c => .obj (setKey kvs (Nat.repr n) c)
  | .arr xs, .index n, c => .arr (xs.set n c)
  | .arr xs, .field s, c =>
    if isCanonIndex s then .arr (xs.set (strToNat s) c) else .arr xs
  | j, _, _ => j

/-- Apply a mutation `f` to the node reached by descending `ps` exactly as
`walk` does, rebuilding the spine.  Since `JSON.parse` trees have no
shared references, this is the functional counterpart of the source's
in-place mutation of the resolved parent. -/
def updateWalk (f : Json → Json) : Json → List Part → Json
  | j, [] => f j
  | j, p :: ps =>
    if isNull j then j
    else
      match jsGet j p with
      | none => j
      | some c => jsSetChild j p (updateWalk f c ps)

/-- Suggestion kinds. -/
inductive SuggType where
  | rewrite | restructure | add | remove
deriving DecidableEq

/-- A suggestion record.  The source field `section` is a Lean keyword and
is embedded as `sectionPath`. -/
structure Suggestion where
  id : Int
  sectionPath : String
  type : SuggType
  current : String
  suggested : String
  reason : String
  principle : String

/-- The function `applySuggestion(suggestion, profile)` of `review.ts`: resolve the
section path; on failure return the profile unchanged; on success splice
or delete for `remove`, and assign `suggestion.suggested` (a string) for
every other type, through the resolved parent. -/
def applySuggestion (s : Suggestion) (profile : Json) : Json :=
  let parts := tokenizePath s.sectionPath
  match resolveParts profile parts with
  | none => profile
  | some (_, key) =>
    updateWalk
      (fun parent =>
        if s.type = SuggType.remove then removeAt parent key
        else setAt parent key (Json.str s.suggested))
      profile parts.dropLast

-- === applyByIds: batch application over the on-disk state ===

/-- A parsed `suggestions.json` file. -/
structure SuggestionsFile where
  generatedAt : String
  jobId : Option String
  suggestions : List Suggestion

/-- The `ids` argument of `applyByIds`: the literal `"all"` or a list of
numeric ids. -/
inductive IdsArg where
  | all : IdsArg
  | list (ids : List Int) : IdsArg
deriving DecidableEq

/-- The membership test `ids === "all" || ids.includes(s.id)`. -/
def idMatches : IdsArg → Int → Bool
  | .all, _ => true
  | .list ids, i => ids.contains i

/-- The files `applyByIds` touches, for one namespace.  A file is `none`
when absent; the profile and backup files hold `some none` when present
but unparseable and `some (some j)` when they parse to `j` (`loadProfile`
returns null in both the absent and the unparseable case, while the
backup-copy step tests bare existence).  `loadSuggestions` likewise
returns null for an absent or unparseable file, which `suggestionsFile =
none` models.  The changelog is the append-only entry list. -/
structure DiskState where
  suggestionsFile : Option SuggestionsFile
  profileFile : Option (Option Json)
  backupFile : Option (Option Json)
  changelog : List (Suggestion × String)

/-- The function `loadProfile()` of `review.ts`: null unless the file exists and
parses. -/
def loadProfile (st : DiskState) : Option Json := st.profileFile.bind id

/-- The partition loop of `applyByIds`: one pass over the suggestions,
pushing matching records to `toApply` and the other ids to `skipped`,
preserving file order in both. -/
def partitionIds (ids : IdsArg) : List Suggestion → List Suggestion × List Int
  | [] => ([], [])
  | s :: rest =>
    let (a, k) := partitionIds ids rest
    if idMatches ids s.id then (s :: a, k) else (a, s.id :: k)

/-- The result record of `applyByIds`. -/
structure ApplyResult where
  applied : List Int
  skipped : List Int
  backupCreated : Bool
deriving DecidableEq

/-- Observable actions of one `applyByIds` call, in program order: the
backup copy of the profile file, the in-memory application of one
suggestion, and the final atomic write of the profile file. -/
inductive ApplyEvent where
  | backupWrite : ApplyEvent
  | applyOne (id : Int) : ApplyEvent
  | profileWrite : ApplyEvent
deriving DecidableEq

/-- The error thrown when suggestions exist but no profile loads. -/
def noProfileMsg : String := "No profile found. Run `profile init` to create one."

/-- The function `applyByIds(ids, jobId)` of `review.ts` over the explicit disk state,
also returning the trace of observable actions in program order: load the
suggestions file (absent or empty → empty result, nothing touched); load
the profile (null → throw); partition; if anything is to be applied and
the profile file exists, copy it verbatim to the backup path; apply each
matching suggestion to the in-memory profile, appending one `"approved"`
changelog entry per suggestion; if anything was applied, atomically write
the mutated profile back. -/
def applyByIds (ids : IdsArg) (st : DiskState) :
    Except String (ApplyResult × DiskState × List ApplyEvent) :=
  match st.suggestionsFile with
  | none => .ok (⟨[], [], false⟩, st, [])
  | some data =>
    if data.suggestions.isEmpty then .ok (⟨[], [], false⟩, st, [])
    else
      match loadProfile st with
      | none => .error noProfileMsg
      | some profile =>
        let (toApply, skipped) := partitionIds ids data.suggestions
        let backupCreated := !toApply.isEmpty && st.profileFile.isSome
        let st1 :=
          if backupCreated then { st with backupFile := st.profileFile } else st
        let profile' := toApply.foldl (fun p s => applySuggestion s p) profile
        let st2 :=
          { st1 with
            changelog := st1.changelog ++ toApply.map (fun s => (s, "approved")) }
        let st3 :=
          if !toApply.isEmpty then { st2 with profileFile := some (some profile') }
          else st2
        .ok
          (⟨toApply.map (fun s => s.id), skipped, backupCreated⟩, st3,
            (if backupCreated then [ApplyEvent.backupWrite] else []) ++
              toApply.map (fun s => ApplyEvent.applyOne s.id) ++
              (if !toApply.isEmpty then [ApplyEvent.profileWrite] else []))

/-- Spec-side reading of the partition: the applied ids are the ids of the
suggestions whose id matches, in file order. -/
def appliedIds (ids : IdsArg) (l : List Suggestion) : List Int :=
  (l.filter (fun s => idMatches ids s.id)).map (fun s => s.id)

/-- Spec-side reading of the partition: the skipped ids are the ids of the
non-matching suggestions, in file order. -/
def skippedIds (ids : IdsArg) (l : List Suggestion) : List Int :=
  (l.filter (fun s => !idMatches ids s.id)).map (fun s => s.id)

-- === Concrete fixtures used by the witness theorems ===

def exProfile : Json := Json.obj [("summary", Json.str "Old")]

def exSug (i : Int) (path : String) : Suggestion :=
  ⟨i, path, SuggType.rewrite, "Old", "New", "r", "p"⟩

def exFile : SuggestionsFile :=
  ⟨"2024-01-01T00:00:00Z", none, [exSug 1 "summary", exSug 2 "summary"]⟩

def exState : DiskState := ⟨some exFile, some (some exProfile), none, []⟩

def exStateNoProfile : DiskState := ⟨some exFile, none, none, []⟩

def exDoc : Json :=
  Json.obj [("experience",
    Json.arr [Json.obj [("bullets", Json.arr [Json.str "a", Json.str "b"])]]),
    ("summary", Json.str "Old")]

-- === Structural locations (for stating which document values change) ===

/-- Structural child access: the canonical tree edges of a document —
object fields by their string name, array elements by their index.  Every
access `jsGet` performs lands on one of these edges (possibly through
JavaScript's key coercions), see `jsGet_eq_childAt_normPart`. -/
def childAt : Json → Part → Option Json
  | .obj kvs, .field s => lookupKey kvs s
  | .arr xs, .index n => xs[n]?
  | _, _ => none

/-- The value of a document at a structural location. -/
def getPath : Json → List Part → Option Json
  | j, [] => some j
  | j, p :: ps =>
    match childAt j p with
    | none => none
    | some c => getPath c ps

/-- The structural edge actually addressed when `jsGet j p` is performed:
numeric keys of objects address the decimal-string field, and canonical
numeric-string fields of arrays address the element index. -/
def normPart : Json → Part → Part
  | .obj _, .index n => .field (Nat.repr n)
  | .arr _, .field s => if isCanonIndex s then .index (strToNat s) else .field s
  | _, p => p

/-- The structural location addressed by descending `ps` from `j` as
`walk` does (the value of the default branch is irrelevant: it is only
reached when the walk fails). -/
def normRoute : Json → List Part → List Part
  | _, [] => []
  | j, p :: ps =>
    match jsGet j p with
    | none => normPart j p :: ps
    | some c => normPart j p :: normRoute c ps

-- ===========================================================================
-- search.ts: query scoring and URL deduplication
-- ===========================================================================

/-- ASCII lowercasing of a string, character by character (`toLowerCase`;
non-ASCII case mapping is not modelled — the scoring and dedup claims are
over ASCII data). -/
def toLowerStr (s : String) : String := String.mk (s.data.map Char.toLower)

/-- Does `l` begin with `pre`? -/
def beginsWith : List Char → List Char → Bool
  | _, [] => true
  | [], _ :: _ => false
  | c :: cs, p :: ps => c == p && beginsWith cs ps

/-- Does `needle` occur contiguously in `hay`? -/
def containsSeq (hay needle : List Char) : Bool :=
  beginsWith hay needle ||
    match hay with
    | [] => false
    | _ :: t => containsSeq t needle

/-- Substring test `hay.includes(needle)`: contiguous occurrence. -/
def includesStr (hay needle : String) : Bool := containsSeq hay.data needle.data

/-- The fixed stopword set of `search.ts`. -/
def STOPWORDS : List String :=
  ["a", "an", "the", "in", "at", "for", "and", "or", "of", "with", "to", "on", "is"]

/-- Split into maximal non-whitespace runs (`split(/\s+/)`; the source
immediately filters out tokens of length ≤ 1, which removes the one empty
token `split` can emit for leading whitespace, so dropping empty tokens
here is observationally identical).  Fuel is the remaining length; each
step consumes at least one character. -/
def splitWSAux : Nat → List Char → List String
  | 0, _ => []
  | _, [] => []
  | fuel + 1, c :: rest =>
    if c.isWhitespace then splitWSAux fuel rest
    else
      String.mk ((c :: rest).takeWhile (fun x => !x.isWhitespace)) ::
        splitWSAux fuel ((c :: rest).dropWhile (fun x => !x.isWhitespace))

def splitWS (s : String) : List String := splitWSAux s.data.length s.data

/-- The filtered query tokens of `matchesQuery`: lower-cased whitespace
tokens of length `> 1` that are not stopwords. -/
def queryTokens (query : String) : List String :=
  (splitWS (toLowerStr query)).filter
    (fun w => decide (1 < w.length) && !STOPWORDS.contains w)

/-- The function `matchesQuery(query, title, extraText)` of `search.ts`. -/
def matchesQuery (query title : String) (extraText : String := "") : Nat :=
  let words := queryTokens query
  if words.isEmpty then 1
  else
    let titleLower := toLowerStr title
    let fullText := titleLower ++ " " ++ toLowerStr extraText
    let titleMatches := (words.filter (fun w => includesStr titleLower w)).length
    let fullMatches := (words.filter (fun w => includesStr fullText w)).length
    if fullMatches < words.length then 0
    else titleMatches * 2 + (fullMatches - titleMatches)

/-- A normalized job record as produced by the source adapters. -/
structure JobResult where
  title : String
  company : String
  location : String
  isRemote : Bool
  jobUrl : String
  source : String
  datePosted : Option String
  salary : Option String
  description : String

/-- The normalization `url.replace(/\?.*$/, "")`: drop everything from the first `?` that is
followed only by non-line-terminator characters up to the end (the `.` of
the regex does not cross line terminators, so a `?` with a later newline
does not match and the scan continues after it). -/
def isLineTerm (c : Char) : Bool :=
  c == '\n' || c == '\r' || c.toNat == 0x2028 || c.toNat == 0x2029

def stripQueryAux : List Char → List Char
  | [] => []
  | c :: rest =>
    if c == '?' && !rest.any isLineTerm then []
    else c :: stripQueryAux rest

/-- The normalization `replace(/\/+$/, "")`: drop the maximal run of trailing slashes. -/
def dropTrailingSlashes (cs : List Char) : List Char :=
  (cs.reverse.dropWhile (fun c => c == '/')).reverse

/-- The dedup key of one job: URL with the query string stripped, trailing
slashes stripped, lower-cased. -/
def dedupeKey (url : String) : String :=
  toLowerStr (String.mk (dropTrailingSlashes (stripQueryAux url.data)))

/-- The `filter`-with-`seen`-set loop of `dedupe`, sequentially: keep a
job iff its key has not been seen, recording kept keys. -/
def dedupeAux (seen : List String) : List JobResult → List JobResult
  | [] => []
  | j :: rest =>
    if seen.contains (dedupeKey j.jobUrl) then dedupeAux seen rest
    else j :: dedupeAux (dedupeKey j.jobUrl :: seen) rest

/-- The function `dedupe(jobs)` of `search.ts`. -/
def dedupe (jobs : List JobResult) : List JobResult := dedupeAux [] jobs

/-- First-occurrence semantics, stated independently of the seen-set: keep
the head verbatim and drop every later result whose key equals the head's,
recursively. -/
def keepFirstOccurrences : List JobResult → List JobResult
  | [] => []
  | j :: rest =>
    j :: keepFirstOccurrences
      (rest.filter (fun j' => dedupeKey j'.jobUrl ≠ dedupeKey j.jobUrl))
termination_by jobs => jobs.length
decreasing_by
  simp only [List.length_cons]
  exact Nat.lt_succ_of_le (List.length_filter_le _ _)

/-- Replace a structural child (object field / array element) of a node;
identity when the edge does not apply.  `jsSetChild` factors through this
via `normPart`, see `jsSetChild_eq_setChild`. -/
def setChild : Json → Part → Json → Json
  | .obj kvs, .field s, c => .obj (setKey kvs s c)
  | .arr xs, .index n, c => .arr (xs.set n c)
  | j, _, _ => j

-- ===========================================================================
-- Theorems
-- ===========================================================================

-- --- Helper lemmas for the scoring and dedup theorems ---

theorem length_filter_add_length_filter_not (l : List α) (p : α → Bool) :
    (l.filter p).length + (l.filter (fun a => !p a)).length = l.length := by
  induction l with
  | nil => rfl
  | cons a t ih =>
    by_cases h : p a = true <;> simp [List.filter_cons, h, ← ih] <;> omega

theorem length_filter_lt_of_mem_not {l : List α} {p : α → Bool} {a : α}
    (ha : a ∈ l) (hpa : p a = false) : (l.filter p).length < l.length := by
  rcases Nat.lt_or_ge (l.filter p).length l.length with h | h
  · exact h
  · exfalso
    have hsub : (l.filter p).Sublist l := List.filter_sublist l
    have heq : l.filter p = l :=
      hsub.eq_of_length (Nat.le_antisymm (List.length_filter_le p l) h)
    have := List.filter_eq_self.mp heq a ha
    rw [hpa] at this
    exact Bool.false_ne_true this

theorem dedupeAux_eq_keepFirst (rest : List JobResult) : ∀ seen : List String,
    dedupeAux seen rest =
      keepFirstOccurrences
        (rest.filter (fun j => !seen.contains (dedupeKey j.jobUrl))) := by
  induction rest with
  | nil => intro seen; simp [dedupeAux, keepFirstOccurrences]
  | cons j t ih =>
    intro seen
    by_cases h : seen.contains (dedupeKey j.jobUrl) = true
    · rw [show dedupeAux seen (j :: t) = dedupeAux seen t by
          simp only [dedupeAux]; rw [if_pos h]]
      rw [ih seen]
      congr 1
      simp only [List.filter_cons, h, Bool.not_true, Bool.false_eq_true,
        if_false]
    · have h' : seen.contains (dedupeKey j.jobUrl) = false := by
        simpa using h
      rw [show dedupeAux seen (j :: t) =
            j :: dedupeAux (dedupeKey j.jobUrl :: seen) t by
          simp only [dedupeAux]
          rw [if_neg (by rw [h']; exact Bool.false_ne_true)]]
      rw [show (j :: t).filter (fun x => !seen.contains (dedupeKey x.jobUrl)) =
            j :: t.filter (fun x => !seen.contains (dedupeKey x.jobUrl)) by
          simp only [List.filter_cons, h', Bool.not_false, if_true]]
      rw [ih (dedupeKey j.jobUrl :: seen)]
      conv_rhs => rw [keepFirstOccurrences]
      congr 1
      rw [List.filter_filter]
      congr 1
      apply List.filter_congr
      intro x _
      simp only [List.contains_cons, Bool.not_or]
      cases hx : dedupeKey x.jobUrl == dedupeKey j.jobUrl
      · have hne : dedupeKey x.jobUrl ≠ dedupeKey j.jobUrl := by
          intro hc; rw [hc] at hx; simp at hx
        simp [hne]
      · have heq : dedupeKey x.jobUrl = dedupeKey j.jobUrl := beq_iff_eq.mp hx
        simp [heq]

/-- C7: `matchesQuery` tokenizes the query by whitespace, lower-cases,
and drops tokens of length ≤ 1 and stopwords (that is `queryTokens`); when
no tokens remain the score is 1; when some remaining token does not occur
as a case-insensitive substring of `title ++ " " ++ extraText` the score is
0; otherwise the score is 2 times the number of tokens occurring in the
title plus the number occurring in the combined text but not in the
title. -/
theorem matchesQuery_spec (query title extraText : String) :
    (queryTokens query = [] → matchesQuery query title extraText = 1) ∧
    ((∃ w ∈ queryTokens query,
        includesStr (toLowerStr title ++ " " ++ toLowerStr extraText) w = false) →
      matchesQuery query title extraText = 0) ∧
    (queryTokens query ≠ [] →
      (∀ w ∈ queryTokens query,
          includesStr (toLowerStr title ++ " " ++ toLowerStr extraText) w = true) →
      matchesQuery query title extraText =
        2 * ((queryTokens query).filter
              (fun w => includesStr (toLowerStr title) w)).length +
          ((queryTokens query).filter
              (fun w => includesStr (toLowerStr title ++ " " ++ toLowerStr extraText) w &&
                !includesStr (toLowerStr title) w)).length) := by
  refine ⟨fun h => by simp [matchesQuery, h], ?_, ?_⟩
  · rintro ⟨w, hw, hnot⟩
    have hisEmpty : (queryTokens query).isEmpty = false := by
      cases hq : queryTokens query with
      | nil => rw [hq] at hw; cases hw
      | cons a l => rfl
    have hlt :
        ((queryTokens query).filter
          (fun w => includesStr (toLowerStr title ++ " " ++ toLowerStr extraText) w)).length <
          (queryTokens query).length :=
      length_filter_lt_of_mem_not hw hnot
    simp only [matchesQuery, hisEmpty, Bool.false_eq_true, if_false]
    rw [if_pos hlt]
  · intro hne hall
    have hisEmpty : (queryTokens query).isEmpty = false := by
      cases hq : queryTokens query with
      | nil => exact absurd hq hne
      | cons a l => rfl
    have hfull :
        (queryTokens query).filter
            (fun w => includesStr (toLowerStr title ++ " " ++ toLowerStr extraText) w) =
          queryTokens query :=
      List.filter_eq_self.mpr hall
    have hsplit :=
      length_filter_add_length_filter_not (queryTokens query)
        (fun w => includesStr (toLowerStr title) w)
    have hcongr :
        (queryTokens query).filter
            (fun w => includesStr (toLowerStr title ++ " " ++ toLowerStr extraText) w &&
              !includesStr (toLowerStr title) w) =
          (queryTokens query).filter (fun w => !includesStr (toLowerStr title) w) := by
      apply List.filter_congr
      intro a ha
      rw [hall a ha, Bool.true_and]
    simp only [matchesQuery, hisEmpty, Bool.false_eq_true, if_false]
    rw [hfull, if_neg (Nat.lt_irrefl _), hcongr]
    omega

/-- Witness for C7: on query `"backend engineer"` against title
`"Backend Engineer"` the token list is nonempty, every token occurs in the
combined text, and the score is 2·2 + 0 = 4. -/
theorem matchesQuery_spec_witness :
    matchesQuery "backend engineer" "Backend Engineer" "" = 4 := by
  have h :=
    (matchesQuery_spec "backend engineer" "Backend Engineer" "").2.2
      (by decide) (by decide)
  rw [h]
  rfl

/-- C8 counterexample: the claim asserts
`matchesQuery("senior backend engineer", "Backend Engineer", "") > 0`, but
the token `"senior"` occurs nowhere in the combined text and the AND
semantics of `matchesQuery` force the score to 0. -/
theorem matchesQuery_senior_not_pos :
    ¬ 0 < matchesQuery "senior backend engineer" "Backend Engineer" "" := by
  rw [show matchesQuery "senior backend engineer" "Backend Engineer" "" = 0
      from rfl]
  exact Nat.lt_irrefl 0

/-- C8 amended: `matchesQuery("senior backend engineer",
"Backend Engineer", "")` returns exactly 0 (the token `"senior"` is
missing from the combined text, and every remaining token is required),
and `matchesQuery("blockchain", "Backend Engineer", "")` returns exactly
0. -/
theorem matchesQuery_examples :
    matchesQuery "senior backend engineer" "Backend Engineer" "" = 0 ∧
      matchesQuery "blockchain" "Backend Engineer" "" = 0 :=
  ⟨rfl, rfl⟩

/-- C9: `dedupe` keys each result by its URL with the query string
stripped, trailing slashes stripped, and lower-cased (`dedupeKey`); it
keeps exactly the first occurrence of each key in input order, dropping
every later result with the same key entirely (the kept record is passed
through verbatim — no merging), as captured by `keepFirstOccurrences`; in
particular two results with URLs `https://x.com/job/1?ref=abc` and
`https://x.com/job/1/` collapse to the first one. -/
theorem dedupe_first_occurrence (jobs : List JobResult) (r1 r2 : JobResult)
    (h1 : r1.jobUrl = "https://x.com/job/1?ref=abc")
    (h2 : r2.jobUrl = "https://x.com/job/1/") :
    dedupe jobs = keepFirstOccurrences jobs ∧ dedupe [r1, r2] = [r1] := by
  constructor
  · rw [dedupe, dedupeAux_eq_keepFirst]
    congr 1
    simp [List.filter_eq_self]
  · have hk : dedupeKey r2.jobUrl = dedupeKey r1.jobUrl := by
      rw [h1, h2]; rfl
    have hc1 : ([] : List String).contains (dedupeKey r1.jobUrl) = false := rfl
    have hc2 : [dedupeKey r1.jobUrl].contains (dedupeKey r2.jobUrl) = true := by
      simp [List.contains_cons, hk]
    simp only [dedupe, dedupeAux, hc1, hc2, Bool.false_eq_true, if_false,
      if_true]

/-- Witness for C9: two concrete results from different sources whose URLs
normalize to the same key collapse to the first one. -/
theorem dedupe_first_occurrence_witness :
    dedupe
        [⟨"Backend Engineer", "acme", "NYC", false,
            "https://x.com/job/1?ref=abc", "greenhouse", none, none, "d1"⟩,
          ⟨"Backend Engineer", "acme", "NYC", true,
            "https://x.com/job/1/", "lever", none, none, "d2"⟩] =
      [⟨"Backend Engineer", "acme", "NYC", false,
          "https://x.com/job/1?ref=abc", "greenhouse", none, none, "d1"⟩] :=
  (dedupe_first_occurrence []
      ⟨"Backend Engineer", "acme", "NYC", false,
        "https://x.com/job/1?ref=abc", "greenhouse", none, none, "d1"⟩
      ⟨"Backend Engineer", "acme", "NYC", true,
        "https://x.com/job/1/", "lever", none, none, "d2"⟩
      rfl rfl).2

-- --- Path access and update: relating jsGet/updateWalk to structural edges ---

theorem jsGet_eq_childAt_normPart (j : Json) (p : Part) :
    jsGet j p = childAt j (normPart j p) := by
  cases j with
  | arr xs =>
    cases p with
    | index n => rfl
    | field s =>
      by_cases hc : isCanonIndex s = true
      · simp [jsGet, childAt, normPart, hc]
      · simp [jsGet, childAt, normPart, hc]
  | obj kvs => cases p <;> rfl
  | null => cases p <;> rfl
  | bool b => cases p <;> rfl
  | num n => cases p <;> rfl
  | str s => cases p <;> rfl

theorem jsSetChild_eq_setChild (j : Json) (p : Part) (c : Json) :
    jsSetChild j p c = setChild j (normPart j p) c := by
  cases j with
  | arr xs =>
    cases p with
    | index n => rfl
    | field s =>
      by_cases hc : isCanonIndex s = true
      · simp [jsSetChild, setChild, normPart, hc]
      · simp [jsSetChild, setChild, normPart, hc]
  | obj kvs => cases p <;> rfl
  | null => cases p <;> rfl
  | bool b => cases p <;> rfl
  | num n => cases p <;> rfl
  | str s => cases p <;> rfl

theorem lookupKey_setKey_self (kvs : List (String × Json)) (s : String)
    (v : Json) : lookupKey (setKey kvs s v) s = some v := by
  induction kvs with
  | nil => simp [setKey, lookupKey]
  | cons kv rest ih =>
    obtain ⟨k, w⟩ := kv
    by_cases h : k = s
    · simp [setKey, h, lookupKey]
    · simp [setKey, h, lookupKey, ih]

theorem lookupKey_setKey_ne (kvs : List (String × Json)) {s s' : String}
    (v : Json) (h : s' ≠ s) :
    lookupKey (setKey kvs s v) s' = lookupKey kvs s' := by
  induction kvs with
  | nil =>
    simp only [setKey, lookupKey]
    rw [if_neg (fun he : s = s' => h he.symm)]
  | cons kv rest ih =>
    obtain ⟨k, w⟩ := kv
    by_cases hk : k = s
    · have hks' : ¬ k = s' := fun he => h (hk.symm.trans he).symm
      simp only [setKey, if_pos hk, lookupKey]
      rw [if_neg hks', if_neg hks']
    · simp only [setKey, if_neg hk, lookupKey]
      by_cases hk' : k = s'
      · rw [if_pos hk', if_pos hk']
      · rw [if_neg hk', if_neg hk', ih]

theorem childAt_setChild_self {j : Json} {p : Part} {c₀ : Json} (c : Json)
    (h : childAt j p = some c₀) : childAt (setChild j p c) p = some c := by
  cases j with
  | obj kvs =>
    cases p with
    | field s => simp [childAt, setChild, lookupKey_setKey_self]
    | index n => simp [childAt] at h
  | arr xs =>
    cases p with
    | index n =>
      simp only [childAt] at h
      have hlt : n < xs.length := (List.getElem?_eq_some.mp h).1
      simp only [childAt, setChild]
      exact List.getElem?_set_self hlt
    | field s => simp [childAt] at h
  | null => simp [childAt] at h
  | bool b => simp [childAt] at h
  | num n => simp [childAt] at h
  | str s => simp [childAt] at h

theorem childAt_setChild_ne {p r : Part} (hne : r ≠ p) (j c : Json) :
    childAt (setChild j p c) r = childAt j r := by
  cases j with
  | obj kvs =>
    cases p with
    | field s =>
      cases r with
      | field s' =>
        have hs : s' ≠ s := fun h => hne (by rw [h])
        simp [childAt, setChild, lookupKey_setKey_ne _ _ hs]
      | index n => simp [childAt, setChild]
    | index n => rfl
  | arr xs =>
    cases p with
    | index n =>
      cases r with
      | index n' =>
        have hn : n ≠ n' := fun h => hne (by rw [h])
        simp [childAt, setChild, List.getElem?_set_ne hn]
      | field s => simp [childAt, setChild]
    | field s => rfl
  | null => rfl
  | bool b => rfl
  | num n => rfl
  | str s => rfl

theorem walk_cons_inv {j : Json} {p : Part} {ps : List Part} {P : Json}
    (h : walk j (p :: ps) = some P) :
    isNull j = false ∧ ∃ c, jsGet j p = some c ∧ walk c ps = some P := by
  simp only [walk] at h
  cases hn : isNull j with
  | true => rw [hn] at h; simp at h
  | false =>
    rw [hn] at h
    simp only [Bool.false_eq_true, if_false] at h
    cases hg : jsGet j p with
    | none => rw [hg] at h; cases h
    | some c => rw [hg] at h; exact ⟨rfl, c, rfl, h⟩

theorem getPath_normRoute_of_walk {ps : List Part} : ∀ {j P : Json},
    walk j ps = some P → getPath j (normRoute j ps) = some P := by
  induction ps with
  | nil =>
    intro j P h
    simp only [walk] at h
    injection h with h'
    subst h'
    rfl
  | cons p ps ih =>
    intro j P h
    obtain ⟨hn, c, hg, hw⟩ := walk_cons_inv h
    have hca : childAt j (normPart j p) = some c := by
      rw [← jsGet_eq_childAt_normPart]; exact hg
    simp only [normRoute, hg, getPath, hca]
    exact ih hw

theorem getPath_updateWalk_normRoute (f : Json → Json) {ps : List Part} :
    ∀ {j P : Json}, walk j ps = some P →
      getPath (updateWalk f j ps) (normRoute j ps) = some (f P) := by
  induction ps with
  | nil =>
    intro j P h
    simp only [walk] at h
    injection h with h'
    subst h'
    rfl
  | cons p ps ih =>
    intro j P h
    obtain ⟨hn, c, hg, hw⟩ := walk_cons_inv h
    have hca : childAt j (normPart j p) = some c := by
      rw [← jsGet_eq_childAt_normPart]; exact hg
    simp only [updateWalk, hn, Bool.false_eq_true, if_false, hg,
      normRoute, jsSetChild_eq_setChild, getPath,
      childAt_setChild_self (updateWalk f c ps) hca]
    exact ih hw

theorem getPath_updateWalk_off_route (f : Json → Json) {ps : List Part} :
    ∀ {j P : Json}, walk j ps = some P →
      ∀ q : List Part, ¬ (normRoute j ps <+: q) → ¬ (q <+: normRoute j ps) →
        getPath (updateWalk f j ps) q = getPath j q := by
  induction ps with
  | nil =>
    intro j P _ q hq1 _
    exact absurd ⟨q, rfl⟩ hq1
  | cons p ps ih =>
    intro j P h q hq1 hq2
    obtain ⟨hn, c, hg, hw⟩ := walk_cons_inv h
    have hca : childAt j (normPart j p) = some c := by
      rw [← jsGet_eq_childAt_normPart]; exact hg
    simp only [normRoute, hg] at hq1 hq2
    simp only [updateWalk, hn, Bool.false_eq_true, if_false, hg,
      jsSetChild_eq_setChild]
    cases q with
    | nil => exact absurd ⟨_, rfl⟩ hq2
    | cons r q' =>
      by_cases hr : r = normPart j p
      · subst hr
        have h1 : ¬ (normRoute c ps <+: q') := fun hcon =>
          hq1 ((List.prefix_cons_inj _).mpr hcon)
        have h2 : ¬ (q' <+: normRoute c ps) := fun hcon =>
          hq2 ((List.prefix_cons_inj _).mpr hcon)
        simp only [getPath, childAt_setChild_self (updateWalk f c ps) hca, hca]
        exact ih hw q' h1 h2
      · simp only [getPath, childAt_setChild_ne hr]

theorem getPath_append (a b : List Part) : ∀ j : Json,
    getPath j (a ++ b) = (getPath j a).bind (fun c => getPath c b) := by
  induction a with
  | nil => intro j; rfl
  | cons p a ih =>
    intro j
    simp only [List.cons_append, getPath]
    cases h : childAt j p with
    | none => rfl
    | some c => exact ih c

theorem resolveParts_inv {d parent : Json} {parts : List Part} {key : Part}
    (h : resolveParts d parts = some (parent, key)) :
    parts.getLast? = some key ∧ walk d parts.dropLast = some parent ∧
      isNull parent = false := by
  cases hl : parts.getLast? with
  | none => simp only [resolveParts, hl] at h; cases h
  | some k =>
    cases hw : walk d parts.dropLast with
    | none => simp only [resolveParts, hl, hw] at h; cases h
    | some P =>
      simp only [resolveParts, hl, hw] at h
      by_cases hn : isNull P = true
      · rw [if_pos hn] at h; cases h
      · rw [if_neg hn] at h
        injection h with h'
        rw [Prod.mk.injEq] at h'
        obtain ⟨rfl, rfl⟩ := h'
        exact ⟨rfl, rfl, Bool.eq_false_iff.mpr hn⟩

theorem applySuggestion_resolved (s : Suggestion) (d parent : Json)
    (key : Part)
    (h : resolveParts d (tokenizePath s.sectionPath) = some (parent, key)) :
    applySuggestion s d =
      updateWalk
        (fun P => if s.type = SuggType.remove then removeAt P key
          else setAt P key (Json.str s.suggested))
        d (tokenizePath s.sectionPath).dropLast := by
  simp [applySuggestion, h]

theorem childAt_setAt_self {parent : Json} {key : Part} (v : Json)
    (hcont : (∃ kvs, parent = Json.obj kvs) ∨
      (∃ xs n, parent = Json.arr xs ∧ key = Part.index n ∧ n < xs.length)) :
    childAt (setAt parent key v) (normPart parent key) = some v := by
  rcases hcont with ⟨kvs, rfl⟩ | ⟨xs, n, rfl, rfl, hlt⟩
  · cases key with
    | field s =>
      simp only [setAt, normPart, childAt]
      exact lookupKey_setKey_self _ _ _
    | index n =>
      simp only [setAt, normPart, childAt]
      exact lookupKey_setKey_self _ _ _
  · simp only [setAt, normPart, setIdxExtend]
    rw [if_pos hlt]
    simp only [childAt]
    exact List.getElem?_set_self hlt

theorem childAt_setAt_ne {parent : Json} {key : Part} (v : Json) {r : Part}
    (hcont : (∃ kvs, parent = Json.obj kvs) ∨
      (∃ xs n, parent = Json.arr xs ∧ key = Part.index n ∧ n < xs.length))
    (hr : r ≠ normPart parent key) :
    childAt (setAt parent key v) r = childAt parent r := by
  rcases hcont with ⟨kvs, rfl⟩ | ⟨xs, n, rfl, rfl, hlt⟩
  · simp only [normPart] at hr
    cases key with
    | field s =>
      cases r with
      | field s' =>
        have hs : s' ≠ s := fun he => hr (by rw [he])
        simp only [setAt, childAt]
        exact lookupKey_setKey_ne _ _ hs
      | index m => simp [setAt, childAt]
    | index n =>
      cases r with
      | field s' =>
        have hs : s' ≠ Nat.repr n := fun he => hr (by rw [he])
        simp only [setAt, childAt]
        exact lookupKey_setKey_ne _ _ hs
      | index m => simp [setAt, childAt]
  · simp only [normPart] at hr
    cases r with
    | index m =>
      have hm : n ≠ m := fun he => hr (by rw [he])
      simp only [setAt, setIdxExtend]
      rw [if_pos hlt]
      simp only [childAt]
      exact List.getElem?_set_ne hm
    | field s' =>
      simp only [setAt, setIdxExtend]
      rw [if_pos hlt]
      simp [childAt]

/-- C1: for every document `d`, path `p` resolving to a (parent, key)
pair inside `d` (the parent a container: any map key, or an in-range
array index), applying `{section: p, type: "rewrite", suggested: v}` sets
the value at the location addressed by `p` to `v` — creating the key when
the parent is a map and the key was absent — and leaves the value at
every other location (all siblings and unrelated subtrees, i.e. every
structural path that neither extends nor is a prefix of the written
location) unchanged. -/
theorem applySuggestion_rewrite_frame (d : Json) (p v : String)
    (sid : Int) (cur reas pr : String) (parent : Json) (key : Part)
    (hres : resolvePath d p = some (parent, key))
    (hcont : (∃ kvs, parent = Json.obj kvs) ∨
      (∃ xs n, parent = Json.arr xs ∧ key = Part.index n ∧ n < xs.length)) :
    getPath (applySuggestion ⟨sid, p, SuggType.rewrite, cur, v, reas, pr⟩ d)
        (normRoute d (tokenizePath p).dropLast ++ [normPart parent key]) =
      some (Json.str v) ∧
    ∀ q : List Part,
      ¬ ((normRoute d (tokenizePath p).dropLast ++ [normPart parent key]) <+: q) →
      ¬ (q <+: (normRoute d (tokenizePath p).dropLast ++ [normPart parent key])) →
      getPath (applySuggestion ⟨sid, p, SuggType.rewrite, cur, v, reas, pr⟩ d) q =
        getPath d q := by
  have hres' : resolveParts d (tokenizePath p) = some (parent, key) := hres
  obtain ⟨hl, hw, hn⟩ := resolveParts_inv hres'
  have happ : applySuggestion ⟨sid, p, SuggType.rewrite, cur, v, reas, pr⟩ d =
      updateWalk (fun P => setAt P key (Json.str v)) d
        (tokenizePath p).dropLast :=
    applySuggestion_resolved _ d parent key hres'
  constructor
  · rw [happ, getPath_append, getPath_updateWalk_normRoute _ hw]
    simp [getPath, childAt_setAt_self (Json.str v) hcont]
  · intro q hq1 hq2
    rw [happ]
    by_cases hpre : normRoute d (tokenizePath p).dropLast <+: q
    · obtain ⟨t, rfl⟩ := hpre
      cases t with
      | nil =>
        exact absurd (by simp [List.prefix_append] :
          normRoute d (tokenizePath p).dropLast ++ ([] : List Part) <+:
            normRoute d (tokenizePath p).dropLast ++ [normPart parent key]) hq2
      | cons r t' =>
        have hrK : r ≠ normPart parent key := by
          intro he
          subst he
          exact hq1 ⟨t', by simp⟩
        rw [getPath_append, getPath_append,
          getPath_updateWalk_normRoute _ hw, getPath_normRoute_of_walk hw]
        simp [getPath, childAt_setAt_ne _ hcont hrK]
    · have hpre2 : ¬ q <+: normRoute d (tokenizePath p).dropLast := fun hcon =>
        hq2 (hcon.trans (List.prefix_append _ _))
      exact getPath_updateWalk_off_route _ hw q hpre hpre2

/-- Witness for C1: rewriting `experience[0].bullets[1]` in a concrete
profile stores the new string at that location. -/
theorem applySuggestion_rewrite_frame_witness :
    getPath
        (applySuggestion
          ⟨1, "experience[0].bullets[1]", SuggType.rewrite, "", "new", "", ""⟩
          exDoc)
        [Part.field "experience", Part.index 0, Part.field "bullets",
          Part.index 1] =
      some (Json.str "new") :=
  (applySuggestion_rewrite_frame exDoc "experience[0].bullets[1]" "new" 1
      "" "" "" (Json.arr [Json.str "a", Json.str "b"]) (Part.index 1) rfl
      (Or.inr ⟨[Json.str "a", Json.str "b"], 1, rfl, rfl, by decide⟩)).1

theorem spliceOne_length {xs : List Json} {n : Nat} (hlt : n < xs.length) :
    (spliceOne xs n).length + 1 = xs.length := by
  simp only [spliceOne, List.length_append, List.length_take, List.length_drop]
  omega

theorem spliceOne_getElem_lt {xs : List Json} {n j : Nat} (hlt : n < xs.length)
    (hj : j < n) : (spliceOne xs n)[j]? = xs[j]? := by
  simp only [spliceOne]
  rw [List.getElem?_append_left (by simp [List.length_take]; omega),
    List.getElem?_take_of_lt hj]

theorem spliceOne_getElem_ge {xs : List Json} {n j : Nat} (hlt : n < xs.length)
    (hj : n ≤ j) : (spliceOne xs n)[j]? = xs[j + 1]? := by
  simp only [spliceOne]
  rw [List.getElem?_append_right (by simp [List.length_take]; omega),
    List.getElem?_drop]
  congr 1
  simp only [List.length_take]
  omega

theorem lookupKey_eq_none_of_not_mem {kvs : List (String × Json)} {s : String}
    (h : s ∉ kvs.map Prod.fst) : lookupKey kvs s = none := by
  induction kvs with
  | nil => rfl
  | cons kv rest ih =>
    obtain ⟨k, w⟩ := kv
    simp only [List.map_cons, List.mem_cons, not_or] at h
    simp only [lookupKey]
    rw [if_neg (fun he => h.1 he.symm)]
    exact ih h.2

theorem lookupKey_delKey_self {kvs : List (String × Json)} {s : String}
    (hnd : (kvs.map Prod.fst).Nodup) : lookupKey (delKey kvs s) s = none := by
  induction kvs with
  | nil => rfl
  | cons kv rest ih =>
    obtain ⟨k, w⟩ := kv
    simp only [List.map_cons, List.nodup_cons] at hnd
    by_cases hk : k = s
    · simp only [delKey, if_pos hk]
      exact lookupKey_eq_none_of_not_mem (hk ▸ hnd.1)
    · simp only [delKey, if_neg hk, lookupKey]
      exact ih hnd.2

/-- C3: for a `remove` suggestion whose path resolves: when the
resolved parent is an array and the key a numeric index `n` within range,
the element at `n` is spliced out — the array's length decreases by
exactly 1, elements before `n` stay in place and every element after `n`
shifts left by one; when the resolved parent is an object (keys unique,
as `JSON.parse` guarantees), the key is deleted outright and becomes
absent from the result — not merely null or empty — whether the key part
is an identifier or a numeric segment (which addresses the decimal-string
property). -/
theorem applySuggestion_remove_spec (d : Json) (p : String)
    (sid : Int) (cur sug reas pr : String) (parent : Json) (key : Part)
    (hres : resolvePath d p = some (parent, key)) :
    (∀ xs n, parent = Json.arr xs → key = Part.index n → n < xs.length →
      getPath (applySuggestion ⟨sid, p, SuggType.remove, cur, sug, reas, pr⟩ d)
          (normRoute d (tokenizePath p).dropLast) =
        some (Json.arr (spliceOne xs n)) ∧
      (spliceOne xs n).length + 1 = xs.length ∧
      (∀ j, j < n → (spliceOne xs n)[j]? = xs[j]?) ∧
      (∀ j, n ≤ j → (spliceOne xs n)[j]? = xs[j + 1]?)) ∧
    (∀ kvs s, parent = Json.obj kvs → key = Part.field s →
      (kvs.map Prod.fst).Nodup →
      getPath (applySuggestion ⟨sid, p, SuggType.remove, cur, sug, reas, pr⟩ d)
          (normRoute d (tokenizePath p).dropLast) =
        some (Json.obj (delKey kvs s)) ∧
      lookupKey (delKey kvs s) s = none) ∧
    (∀ kvs n, parent = Json.obj kvs → key = Part.index n →
      (kvs.map Prod.fst).Nodup →
      getPath (applySuggestion ⟨sid, p, SuggType.remove, cur, sug, reas, pr⟩ d)
          (normRoute d (tokenizePath p).dropLast) =
        some (Json.obj (delKey kvs (Nat.repr n))) ∧
      lookupKey (delKey kvs (Nat.repr n)) (Nat.repr n) = none) := by
  have hres' : resolveParts d (tokenizePath p) = some (parent, key) := hres
  obtain ⟨hl, hw, hn⟩ := resolveParts_inv hres'
  have happ : applySuggestion ⟨sid, p, SuggType.remove, cur, sug, reas, pr⟩ d =
      updateWalk (fun P => removeAt P key) d (tokenizePath p).dropLast :=
    applySuggestion_resolved _ d parent key hres'
  have hnode : getPath
      (applySuggestion ⟨sid, p, SuggType.remove, cur, sug, reas, pr⟩ d)
      (normRoute d (tokenizePath p).dropLast) = some (removeAt parent key) := by
    rw [happ]
    exact getPath_updateWalk_normRoute _ hw
  refine ⟨?_, ?_, ?_⟩
  · rintro xs n rfl rfl hlt
    exact ⟨hnode, spliceOne_length hlt,
      fun j hj => spliceOne_getElem_lt hlt hj,
      fun j hj => spliceOne_getElem_ge hlt hj⟩
  · rintro kvs s rfl rfl hnd
    exact ⟨hnode, lookupKey_delKey_self hnd⟩
  · rintro kvs n rfl rfl hnd
    exact ⟨hnode, lookupKey_delKey_self hnd⟩

/-- Witness for C3: removing `experience[0].bullets[0]` from a concrete
profile leaves the one-element bullets array `["b"]` at that parent. -/
theorem applySuggestion_remove_spec_witness :
    getPath
        (applySuggestion
          ⟨1, "experience[0].bullets[0]", SuggType.remove, "", "", "", ""⟩
          exDoc)
        [Part.field "experience", Part.index 0, Part.field "bullets"] =
      some (Json.arr [Json.str "b"]) :=
  ((applySuggestion_remove_spec exDoc "experience[0].bullets[0]" 1 "" "" ""
        "" (Json.arr [Json.str "a", Json.str "b"]) (Part.index 0) rfl).1
      [Json.str "a", Json.str "b"] 0 rfl rfl (by decide)).1

theorem partitionIds_eq (ids : IdsArg) (l : List Suggestion) :
    partitionIds ids l =
      (l.filter (fun s => idMatches ids s.id),
        (l.filter (fun s => !idMatches ids s.id)).map (fun s => s.id)) := by
  induction l with
  | nil => rfl
  | cons s rest ih =>
    simp only [partitionIds, ih, List.filter_cons]
    cases h : idMatches ids s.id <;> simp [h]

/-- C4: for every loaded suggestions file and ids argument (with a
loadable profile, without which the call throws), `applyByIds` partitions
the suggestion ids into applied (ids is `"all"` or the id is a member)
and skipped (the rest), both in the file's original order; `"all"` applies
every id and skips none, and a singleton id matching nothing applies
nothing and skips every id in order. -/
theorem applyByIds_partition (ids : IdsArg) (st : DiskState)
    (data : SuggestionsFile) (prof : Json)
    (hs : st.suggestionsFile = some data) (hne : data.suggestions ≠ [])
    (hp : loadProfile st = some prof) :
    ∃ res st' tr, applyByIds ids st = .ok (res, st', tr) ∧
      res.applied = appliedIds ids data.suggestions ∧
      res.skipped = skippedIds ids data.suggestions ∧
      (ids = .all →
        res.applied = data.suggestions.map (fun s => s.id) ∧ res.skipped = []) ∧
      (∀ x : Int, ids = .list [x] → (∀ s ∈ data.suggestions, s.id ≠ x) →
        res.applied = [] ∧ res.skipped = data.suggestions.map (fun s => s.id)) := by
  have hem : data.suggestions.isEmpty = false := by
    cases h : data.suggestions with
    | nil => exact absurd h hne
    | cons a l => rfl
  simp only [applyByIds, hs, hem, Bool.false_eq_true, if_false, hp,
    partitionIds_eq]
  refine ⟨_, _, _, rfl, rfl, rfl, ?_, ?_⟩
  · intro hall
    subst hall
    constructor
    · simp [appliedIds, idMatches, List.filter_eq_self]
    · simp [skippedIds, idMatches]
  · intro x hx hnot
    subst hx
    constructor
    · simp only [appliedIds, List.map_eq_nil_iff, List.filter_eq_nil_iff]
      intro s hs'
      simp only [idMatches, List.contains_cons, List.contains_nil,
        Bool.or_false, Bool.not_eq_true]
      exact beq_eq_false_iff_ne.mpr (hnot s hs')
    · have : data.suggestions.filter
          (fun s => !idMatches (IdsArg.list [x]) s.id) = data.suggestions := by
        apply List.filter_eq_self.mpr
        intro s hs'
        simp only [idMatches, List.contains_cons, List.contains_nil,
          Bool.or_false, Bool.not_eq_true']
        exact beq_eq_false_iff_ne.mpr (hnot s hs')
      simp [skippedIds, this]

/-- Witness for C4: on a two-suggestion file (ids 1 and 2) with a loadable
profile, `applyByIds` with ids `[2]` applies `[2]` and skips `[1]`. -/
theorem applyByIds_partition_witness :
    ∃ res st' tr,
      applyByIds (IdsArg.list [2]) exState = .ok (res, st', tr) ∧
        res.applied = appliedIds (IdsArg.list [2]) exFile.suggestions ∧
        res.skipped = skippedIds (IdsArg.list [2]) exFile.suggestions ∧
        res.applied = [2] ∧ res.skipped = [1] := by
  obtain ⟨res, st', tr, h1, h2, h3, -, -⟩ :=
    applyByIds_partition (IdsArg.list [2]) exState exFile exProfile rfl
      (List.cons_ne_nil _ _) rfl
  exact ⟨res, st', tr, h1, h2, h3, by rw [h2]; rfl, by rw [h3]; rfl⟩

/-- C5: within one `applyByIds` call, the backup copy of the profile
file is made iff `toApply` is non-empty and the profile file exists; when
made it is the very first observable action of the call (hence happens
before every profile mutation) and occurs nowhere else in the trace
(exactly once per call, however many suggestions are applied); when
`toApply` is empty no backup is made and the profile file on disk is never
written. -/
theorem applyByIds_backup (ids : IdsArg) (st : DiskState)
    (data : SuggestionsFile) (prof : Json)
    (hs : st.suggestionsFile = some data) (hne : data.suggestions ≠ [])
    (hp : loadProfile st = some prof) :
    ∃ res st' tr, applyByIds ids st = .ok (res, st', tr) ∧
      (res.backupCreated = true ↔
        (partitionIds ids data.suggestions).1 ≠ [] ∧ st.profileFile.isSome = true) ∧
      (res.backupCreated = true →
        tr.head? = some ApplyEvent.backupWrite ∧
          ∀ e ∈ tr.tail, e ≠ ApplyEvent.backupWrite) ∧
      (res.backupCreated = false → ∀ e ∈ tr, e ≠ ApplyEvent.backupWrite) ∧
      ((partitionIds ids data.suggestions).1 = [] →
        res.backupCreated = false ∧ st'.profileFile = st.profileFile ∧
          ∀ e ∈ tr, e ≠ ApplyEvent.profileWrite) := by
  have hem : data.suggestions.isEmpty = false := by
    cases h : data.suggestions with
    | nil => exact absurd h hne
    | cons a l => rfl
  have hpf : st.profileFile.isSome = true := by
    cases h : st.profileFile with
    | none => rw [loadProfile, h] at hp; cases hp
    | some j => rfl
  simp only [applyByIds, hs, hem, Bool.false_eq_true, if_false, hp]
  rw [show partitionIds ids data.suggestions =
      ((partitionIds ids data.suggestions).1,
        (partitionIds ids data.suggestions).2) from rfl]
  cases hta : (partitionIds ids data.suggestions).1 with
  | nil =>
    refine ⟨_, _, _, rfl, by simp, by simp, by simp, fun _ => ⟨rfl, rfl, by simp⟩⟩
  | cons s ts =>
    have hb : (!(s :: ts : List Suggestion).isEmpty &&
        st.profileFile.isSome) = true := by simp [hpf]
    refine ⟨_, _, _, rfl, ?_, ?_, ?_, ?_⟩
    · rw [hb]
      simp [hpf]
    · intro _
      rw [if_pos hb,
        if_pos (show (!(s :: ts : List Suggestion).isEmpty) = true from rfl)]
      simp only [List.singleton_append, List.head?_cons, List.tail_cons]
      refine ⟨rfl, ?_⟩
      intro e he
      rcases List.mem_append.mp he with h' | h'
      · obtain ⟨a, -, rfl⟩ := List.mem_map.mp h'
        exact fun hc => ApplyEvent.noConfusion hc
      · rw [List.mem_singleton.mp h']
        exact fun hc => ApplyEvent.noConfusion hc
    · intro hfalse
      simp [hpf] at hfalse
    · intro hc
      cases hc

/-- Witness for C5: applying all suggestions of the two-entry file over an
existing profile creates the backup, and the backup write is the first
observable action of the call. -/
theorem applyByIds_backup_witness :
    ∃ res st' tr, applyByIds IdsArg.all exState = .ok (res, st', tr) ∧
      res.backupCreated = true ∧ tr.head? = some ApplyEvent.backupWrite := by
  obtain ⟨res, st', tr, h1, h2, h3, -, -⟩ :=
    applyByIds_backup IdsArg.all exState exFile exProfile rfl
      (List.cons_ne_nil _ _) rfl
  have hne' : (partitionIds IdsArg.all exFile.suggestions).1 ≠ [] := by
    rw [show (partitionIds IdsArg.all exFile.suggestions).1 =
        [exSug 1 "summary", exSug 2 "summary"] from rfl]
    exact List.cons_ne_nil _ _
  have hbc : res.backupCreated = true := h2.mpr ⟨hne', rfl⟩
  exact ⟨res, st', tr, h1, hbc, (h3 hbc).1⟩

/-- C6: `applyByIds` on an absent or empty suggestions file returns
`{applied: [], skipped: [], backupCreated: false}` without touching any
file and without error; whereas when suggestions exist and something is to
be applied, a profile that is absent (or unparseable) is fatal: the call
returns the thrown error, whose message carries the remediation hint
"Run `profile init` to create one". -/
theorem applyByIds_empty_or_missing_profile :
    (∀ (ids : IdsArg) (st : DiskState),
      (st.suggestionsFile = none ∨
        ∃ data, st.suggestionsFile = some data ∧ data.suggestions = []) →
      applyByIds ids st = .ok (⟨[], [], false⟩, st, [])) ∧
    (∀ (ids : IdsArg) (st : DiskState) (data : SuggestionsFile),
      st.suggestionsFile = some data → data.suggestions ≠ [] →
      (ids = IdsArg.all ∨ ∃ s ∈ data.suggestions, idMatches ids s.id = true) →
      loadProfile st = none →
      applyByIds ids st = .error noProfileMsg) := by
  constructor
  · rintro ids st (h | ⟨data, h, hemp⟩)
    · simp [applyByIds, h]
    · simp [applyByIds, h, hemp]
  · intro ids st data hs hne _ hp
    have hem : data.suggestions.isEmpty = false := by
      cases h : data.suggestions with
      | nil => exact absurd h hne
      | cons a l => rfl
    simp [applyByIds, hs, hem, hp]

/-- Witness for C6: a state with no suggestions file yields the empty
result unchanged, and a state whose suggestions file has two entries but
whose profile file is absent yields the "No profile found" error. -/
theorem applyByIds_empty_or_missing_profile_witness :
    applyByIds IdsArg.all ⟨none, none, none, []⟩ =
        .ok (⟨[], [], false⟩, ⟨none, none, none, []⟩, []) ∧
      applyByIds IdsArg.all exStateNoProfile = .error noProfileMsg :=
  ⟨applyByIds_empty_or_missing_profile.1 IdsArg.all ⟨none, none, none, []⟩
      (Or.inl rfl),
    applyByIds_empty_or_missing_profile.2 IdsArg.all exStateNoProfile exFile
      rfl (List.cons_ne_nil _ _) (Or.inl rfl) rfl⟩

/-- C10: `applyByIds` loads the profile right after loading a
non-empty suggestions file and before partitioning the ids, so with a
non-empty suggestions file and an absent (or unparseable) profile it
returns the thrown "No profile found" error even when the ids argument
matches no suggestion id at all — no empty-result return is possible in
that case. -/
theorem applyByIds_missing_profile_no_match (ids : IdsArg) (st : DiskState)
    (data : SuggestionsFile)
    (hs : st.suggestionsFile = some data) (hne : data.suggestions ≠ [])
    (hnomatch : ∀ s ∈ data.suggestions, idMatches ids s.id = false)
    (hp : loadProfile st = none) :
    applyByIds ids st = .error noProfileMsg := by
  have hem : data.suggestions.isEmpty = false := by
    cases h : data.suggestions with
    | nil => exact absurd h hne
    | cons a l => rfl
  simp [applyByIds, hs, hem, hp]

/-- Witness for C10: ids `[99]` matches neither suggestion id of the
two-entry file, yet with the profile absent the call still errors. -/
theorem applyByIds_missing_profile_no_match_witness :
    applyByIds (IdsArg.list [99]) exStateNoProfile = .error noProfileMsg :=
  applyByIds_missing_profile_no_match (IdsArg.list [99]) exStateNoProfile
    exFile rfl (List.cons_ne_nil _ _) (by decide) rfl

/-- C2: for every document `d` and suggestion whose section path fails
to resolve, `applySuggestion` leaves `d` exactly unchanged — hence its
JSON serialization is identical before and after the call.  (The
no-exception half of the claim is reflected by the embedding being a total
function: the failing branch of the source performs no operation at all
before returning the document.) -/
theorem applySuggestion_unresolved_id (s : Suggestion) (d : Json)
    (h : resolvePath d s.sectionPath = none) :
    applySuggestion s d = d := by
  have h' : resolveParts d (tokenizePath s.sectionPath) = none := h
  simp [applySuggestion, h']

/-- Witness for C2: the path `"experience[5].bullets[0]"` does not resolve
in `{"experience": []}` (the intermediate element is missing), and applying
a rewrite suggestion addressed there returns the document unchanged. -/
theorem applySuggestion_unresolved_id_witness :
    resolvePath (Json.obj [("experience", Json.arr [])])
        "experience[5].bullets[0]" = none ∧
      applySuggestion
        ⟨1, "experience[5].bullets[0]", SuggType.rewrite, "", "new", "", ""⟩
        (Json.obj [("experience", Json.arr [])]) =
        Json.obj [("experience", Json.arr [])] :=
  ⟨rfl,
    applySuggestion_unresolved_id
      ⟨1, "experience[5].bullets[0]", SuggType.rewrite, "", "new", "", ""⟩
      (Json.obj [("experience", Json.arr [])]) rfl⟩

end JobHunter
